import Mathlib

/-
  Verification of the D3config (configdb) hierarchical configuration library.

  The tree engine (tree/node.go, tree/path.go, tree/number.go) and the
  orchestration core (configdb.go) are embedded shallowly:

  * Go strings are modelled as lists of characters (Str).
  * tree.Node = map[string]interface{} is modelled as an association list
    with string keys; Go map semantics (unique keys) appear as Nodup
    hypotheses where they matter.
  * The untyped interface{} values a node may hold (nested Node, slice,
    bool, string, tree.Number, nil) are the constructors of Value.
-/

namespace D3

/-- Go strings, modelled as lists of characters. -/
abbrev Str := List Char

/-- Converts a Lean string literal to the character-list model. -/
def chars (x : String) : Str := x.data

/-- A value held by a tree node: nested node, slice, bool, string,
number (tree.Number is a string), or nil (tree/node.go). -/
inductive Value : Type where
  | node : List (Str × Value) → Value
  | vlist : List Value → Value
  | vbool : Bool → Value
  | vstr : Str → Value
  | vnum : Str → Value
  | vnull : Value

instance : Inhabited Value := ⟨Value.vnull⟩

mutual

/-- Deep structural equality on values (cmp.Equal in node.go). -/
def beqValue : Value → Value → Bool
  | Value.node a, Value.node b => beqNode a b
  | Value.vlist a, Value.vlist b => beqVList a b
  | Value.vbool a, Value.vbool b => a == b
  | Value.vstr a, Value.vstr b => a == b
  | Value.vnum a, Value.vnum b => a == b
  | Value.vnull, Value.vnull => true
  | _, _ => false
  termination_by v _ => sizeOf v

/-- Deep structural equality on nodes. -/
def beqNode : List (Str × Value) → List (Str × Value) → Bool
  | [], [] => true
  | (k, v) :: r, (k2, v2) :: r2 => k == k2 && beqValue v v2 && beqNode r r2
  | _, _ => false
  termination_by n _ => sizeOf n

/-- Deep structural equality on slices of values. -/
def beqVList : List Value → List Value → Bool
  | [], [] => true
  | v :: r, v2 :: r2 => beqValue v v2 && beqVList r r2
  | _, _ => false
  termination_by l _ => sizeOf l

end

theorem beq_all_iff : ∀ N : Nat,
    (∀ v w : Value, sizeOf v ≤ N → (beqValue v w = true ↔ v = w)) ∧
    (∀ a b : List (Str × Value), sizeOf a ≤ N → (beqNode a b = true ↔ a = b)) ∧
    (∀ a b : List Value, sizeOf a ≤ N → (beqVList a b = true ↔ a = b)) := by
  intro N
  induction N using Nat.strong_induction_on with
  | _ N ih =>
    refine ⟨?_, ?_, ?_⟩
    · intro v w hv
      cases v <;> cases w <;> simp_all [beqValue]
      case node.node a b =>
        have ha : sizeOf a < N := by
          have := hv; simp at this; omega
        exact (ih (sizeOf a) ha).2.1 a b le_rfl
      case vlist.vlist a b =>
        have ha : sizeOf a < N := by
          have := hv; simp at this; omega
        exact (ih (sizeOf a) ha).2.2 a b le_rfl
    · intro a b ha
      cases a with
      | nil => cases b <;> simp [beqNode]
      | cons hd r =>
        obtain ⟨k, v⟩ := hd
        cases b with
        | nil => simp [beqNode]
        | cons hd2 r2 =>
          obtain ⟨k2, v2⟩ := hd2
          have hsv : sizeOf v < N := by
            have := ha; simp at this; omega
          have hsr : sizeOf r < N := by
            have := ha; simp at this; omega
          simp [beqNode, Bool.and_eq_true, beq_iff_eq,
            (ih (sizeOf v) hsv).1 v v2 le_rfl,
            (ih (sizeOf r) hsr).2.1 r r2 le_rfl, and_assoc]
    · intro a b ha
      cases a with
      | nil => cases b <;> simp [beqVList]
      | cons v r =>
        cases b with
        | nil => simp [beqVList]
        | cons v2 r2 =>
          have hsv : sizeOf v < N := by
            have := ha; simp at this; omega
          have hsr : sizeOf r < N := by
            have := ha; simp at this; omega
          simp [beqVList, Bool.and_eq_true,
            (ih (sizeOf v) hsv).1 v v2 le_rfl,
            (ih (sizeOf r) hsr).2.2 r r2 le_rfl]

theorem beqValue_iff (v w : Value) : beqValue v w = true ↔ v = w :=
  (beq_all_iff (sizeOf v)).1 v w le_rfl

theorem beqNode_iff (a b : List (Str × Value)) : beqNode a b = true ↔ a = b :=
  (beq_all_iff (sizeOf a)).2.1 a b le_rfl

instance : DecidableEq Value := fun v w =>
  decidable_of_iff (beqValue v w = true) (beqValue_iff v w)

/-- tree.Node: map from child name to value, as an association list. -/
abbrev Node := List (Str × Value)

/-- The keys of a node. -/
def keys (n : Node) : List Str := n.map Prod.fst

/-- Go map read access m[k] (first binding wins; Go maps have unique keys). -/
def lookupV : Node → Str → Option Value
  | [], _ => none
  | (k, v) :: rest, key => if k = key then some v else lookupV rest key

/-- Go map write access m[k] = v: replace the binding, or append a new one. -/
def nodeSet : Node → Str → Value → Node
  | [], key, v => [(key, v)]
  | (k, w) :: rest, key, v =>
    if k = key then (key, v) :: rest else (k, w) :: nodeSet rest key v

/-- PathSplit (tree/path.go): strings.Split on the period separator.
Splitting the empty string yields one empty segment. -/
def pathSplit : Str → List Str
  | [] => [[]]
  | c :: rest =>
    match pathSplit rest with
    | [] => [[c]]
    | s :: ss => if c = '.' then [] :: s :: ss else (c :: s) :: ss

/-- PathJoin (tree/path.go): strings.Join with the period separator. -/
def pathJoin : List Str → Str
  | [] => []
  | [s] => s
  | s :: rest => s ++ '.' :: pathJoin rest

/-- PathContains (tree/path.go): whether the segments of subPath are a
segment-wise prefix of the segments of path. -/
def pathContains (path subPath : Str) : Bool :=
  let p := pathSplit path
  let sp := pathSplit subPath
  if p.length < sp.length then false
  else (List.zip sp p).all fun e => e.1 == e.2

mutual

/-- Node.Merge (node.go:196): for each key of the new tree, merge
recursively when both values are nodes, otherwise the new value replaces
the old one; keys missing from the old tree are added. -/
def nodeMerge : Node → Node → Node
  | n, [] => n
  | n, (k, vNew) :: rest =>
    let n2 :=
      match lookupV n k with
      | some v => nodeSet n k (valueMerge v vNew)
      | none => nodeSet n k vNew
    nodeMerge n2 rest
  termination_by _ b => sizeOf b

/-- One key position of Node.Merge: two nodes merge, otherwise the new
value wins (slices are replaced wholesale). -/
def valueMerge : Value → Value → Value
  | Value.node a, Value.node b => Value.node (nodeMerge a b)
  | _, vNew => vNew
  termination_by _ w => sizeOf w

end

/-- Result of Node.Compare: lists of paths that were modified, added or
removed. -/
structure Diff where
  modified : List Str
  added : List Str
  removed : List Str
deriving DecidableEq

/-- Size of a value found by lookup is below the size of the node. -/
theorem sizeOf_lookupV {l : Node} {k : Str} {v : Value}
    (h : lookupV l k = some v) : sizeOf v < sizeOf l := by
  induction l with
  | nil => simp [lookupV] at h
  | cons hd rest ih =>
    obtain ⟨k2, v2⟩ := hd
    by_cases hk : k2 = k
    · subst hk
      simp [lookupV] at h
      subst h
      simp
      omega
    · simp [lookupV, hk] at h
      have := ih h
      simp
      omega

theorem one_le_sizeOf_node (n : Node) : 1 ≤ sizeOf n := by
  cases n <;> simp <;> omega

theorem one_le_sizeOf_value (v : Value) : 1 ≤ sizeOf v := by
  cases v <;> simp <;> omega

theorem lex3_of_lt {a1 a2 b1 b2 c1 c2 : Nat} (h : a1 < a2) :
    Prod.Lex (fun x y => x < y) (Prod.Lex (fun x y => x < y) (fun x y => x < y))
      (a1, b1, c1) (a2, b2, c2) := Prod.Lex.left _ _ h

theorem lex3_of_le_lt {a1 a2 b1 b2 c1 c2 : Nat} (h1 : a1 ≤ a2) (h2 : b1 < b2) :
    Prod.Lex (fun x y => x < y) (Prod.Lex (fun x y => x < y) (fun x y => x < y))
      (a1, b1, c1) (a2, b2, c2) := by
  rcases Nat.lt_or_eq_of_le h1 with h | h
  · exact Prod.Lex.left _ _ h
  · subst h; exact Prod.Lex.right _ (Prod.Lex.left _ _ h2)

theorem lex3_of_le_le_lt {a1 a2 b1 b2 c1 c2 : Nat} (h1 : a1 ≤ a2) (h2 : b1 ≤ b2)
    (h3 : c1 < c2) :
    Prod.Lex (fun x y => x < y) (Prod.Lex (fun x y => x < y) (fun x y => x < y))
      (a1, b1, c1) (a2, b2, c2) := by
  rcases Nat.lt_or_eq_of_le h1 with h | h
  · exact Prod.Lex.left _ _ h
  · subst h
    rcases Nat.lt_or_eq_of_le h2 with h | h
    · exact Prod.Lex.right _ (Prod.Lex.left _ _ h)
    · subst h; exact Prod.Lex.right _ (Prod.Lex.right _ h3)

mutual

/-- Node.compare (node.go:134): walk the old tree against the new one with
a path prefix, collecting modified, added and removed paths.  Its two
range loops are compareOld (over the old tree) and compareNew (over the
new tree); the case bodies inside the loops are split into the helper
functions valueDiff, removedEntry and addedPaths below. -/
def compareNode (a b : Node) (pre : Str) : Diff :=
  let d := compareOld a b pre
  ⟨d.modified, d.added ++ compareNew a b pre, d.removed⟩
  termination_by (sizeOf a, sizeOf b, 1)
  decreasing_by
    all_goals simp_wf
    all_goals apply lex3_of_le_le_lt <;>
      first | omega | apply one_le_sizeOf_node | apply one_le_sizeOf_value

/-- First loop of Node.compare (node.go:136): for each key of the old
tree, a found key is handled by valueDiff, a missing one by
removedEntry. -/
def compareOld : Node → Node → Str → Diff
  | [], _, _ => ⟨[], [], []⟩
  | (k, v) :: restA, b, pre =>
    let d : Diff :=
      match lookupV b k with
      | some vNew => valueDiff v vNew (pre ++ k)
      | none => removedEntry v (pre ++ k)
    let drest := compareOld restA b pre
    ⟨d.modified ++ drest.modified, d.added ++ drest.added,
      d.removed ++ drest.removed⟩
  termination_by a b _ => (sizeOf a, sizeOf b, 0)
  decreasing_by all_goals simp_wf <;> apply lex3_of_lt <;> omega

/-- The shared-key cases of Node.compare (node.go:139): both nodes
recurse; a node replaced by a value marks the key modified plus the old
descendants removed; a value replaced by a node marks the key modified
plus the new descendants added; two values compare by deep equality. -/
def valueDiff : Value → Value → Str → Diff
  | Value.node na, Value.node nb, pk => compareNode na nb (pk ++ ['.'])
  | Value.node na, _, pk =>
    ⟨[pk], [], (compareNode na [] (pk ++ ['.'])).removed⟩
  | _, Value.node nb, pk =>
    ⟨[pk], (compareNode [] nb (pk ++ ['.'])).added, []⟩
  | v, vNew, pk => if v = vNew then ⟨[], [], []⟩ else ⟨[pk], [], []⟩
  termination_by v w _ => (sizeOf v, sizeOf w, 0)
  decreasing_by
    all_goals simp_wf
    all_goals first
      | (apply lex3_of_lt; omega)
      | (apply lex3_of_le_lt <;>
          first | omega | apply one_le_sizeOf_node | apply one_le_sizeOf_value)

/-- The removed-key case of Node.compare (node.go:163): the key is
removed, and a node subtree is expanded via compare against an empty
node. -/
def removedEntry : Value → Str → Diff
  | Value.node na, pk =>
    ⟨[], [], pk :: (compareNode na [] (pk ++ ['.'])).removed⟩
  | _, pk => ⟨[], [], [pk]⟩
  termination_by v _ => (sizeOf v, 0, 0)
  decreasing_by all_goals simp_wf <;> apply lex3_of_lt <;> omega

/-- The added-key case of Node.compare (node.go:175): the key is added,
and a node subtree is expanded via compare from an empty node. -/
def addedPaths : Value → Str → List Str
  | Value.node nb, pk => pk :: (compareNode [] nb (pk ++ ['.'])).added
  | _, pk => [pk]
  termination_by w _ => (1, sizeOf w, 0)
  decreasing_by all_goals simp_wf <;> apply lex3_of_le_lt <;> omega

/-- Second loop of Node.compare (node.go:172): keys only present in the
new tree are added. -/
def compareNew : Node → Node → Str → List Str
  | _, [], _ => []
  | a, (k, vNew) :: restB, pre =>
    let add : List Str :=
      match lookupV a k with
      | some _ => []
      | none => addedPaths vNew (pre ++ k)
    add ++ compareNew a restB pre
  termination_by a b _ => (1, sizeOf b, 0)
  decreasing_by all_goals simp_wf <;> apply lex3_of_le_lt <;> omega

end

/-- All descendant paths of a node under a prefix: for each key the path
itself, then, when the value is a node, every descendant path of that
subtree.  This is the specification-side notion of recursively expanding
a node subtree into all its descendant paths. -/
def allPaths : Node → Str → List Str
  | [], _ => []
  | (k, v) :: rest, pre =>
    ((pre ++ k) ::
      (match v with
       | Value.node m => allPaths m (pre ++ k ++ ['.'])
       | _ => [])) ++ allPaths rest pre
  termination_by n _ => sizeOf n
  decreasing_by all_goals simp_wf <;> omega

/-- Spec-side removed-key case: the key itself plus all descendant paths
of a node subtree. -/
def removedEntrySpec : Value → Str → Diff
  | Value.node na, pk => ⟨[], [], pk :: allPaths na (pk ++ ['.'])⟩
  | _, pk => ⟨[], [], [pk]⟩

/-- Spec-side added-key case: the key itself plus all descendant paths of
a node subtree. -/
def addedPathsSpec : Value → Str → List Str
  | Value.node nb, pk => pk :: allPaths nb (pk ++ ['.'])
  | _, pk => [pk]

/-- Spec-side treatment of the keys only present in the new tree: each is
added, recursively expanded into all descendant paths of any node
subtree. -/
def compareSpecNewOnly : Node → Node → Str → List Str
  | _, [], _ => []
  | a, (k, vNew) :: restB, pre =>
    (match lookupV a k with
     | some _ => []
     | none => addedPathsSpec vNew (pre ++ k)) ++
      compareSpecNewOnly a restB pre

mutual

/-- Specification-side diff, written from the spec text: at a shared key
two nodes yield the recursive diff; a node on exactly one side yields the
key as modified plus all descendant paths of the node side as removed or
added; two non-node values yield the key as modified when they differ by
deep equality.  A key only in the old tree is removed, a key only in the
new tree is added, each expanded into all descendant paths of any node
subtree. -/
def compareSpecNode (a b : Node) (pre : Str) : Diff :=
  let d := compareSpecShared a b pre
  ⟨d.modified, d.added ++ compareSpecNewOnly a b pre, d.removed⟩
  termination_by (sizeOf a, sizeOf b, 1)
  decreasing_by all_goals simp_wf <;> apply lex3_of_le_le_lt <;> omega

/-- Spec-side treatment of the keys of the old tree. -/
def compareSpecShared : Node → Node → Str → Diff
  | [], _, _ => ⟨[], [], []⟩
  | (k, v) :: restA, b, pre =>
    let d : Diff :=
      match lookupV b k with
      | some vNew => valueDiffSpec v vNew (pre ++ k)
      | none => removedEntrySpec v (pre ++ k)
    let drest := compareSpecShared restA b pre
    ⟨d.modified ++ drest.modified, d.added ++ drest.added,
      d.removed ++ drest.removed⟩
  termination_by a b _ => (sizeOf a, sizeOf b, 0)
  decreasing_by all_goals simp_wf <;> apply lex3_of_lt <;> omega

/-- Spec-side shared-key cases: two nodes yield the recursive diff, a
node on exactly one side yields the key as modified plus the node side's
descendant paths as removed or added, and two non-node values yield the
key as modified exactly when they differ by deep equality. -/
def valueDiffSpec : Value → Value → Str → Diff
  | Value.node na, Value.node nb, pk => compareSpecNode na nb (pk ++ ['.'])
  | Value.node na, _, pk => ⟨[pk], [], allPaths na (pk ++ ['.'])⟩
  | _, Value.node nb, pk => ⟨[pk], allPaths nb (pk ++ ['.']), []⟩
  | v, vNew, pk => if v = vNew then ⟨[], [], []⟩ else ⟨[pk], [], []⟩
  termination_by v w _ => (sizeOf v, sizeOf w, 0)
  decreasing_by all_goals simp_wf <;> apply lex3_of_lt <;> omega

end

/-- Node.Set (node.go:52) after the codec step: Go splits the path,
walks/creates all but the last segment with CreatePath (overwriting any
non-node value on the way with a fresh empty node), then assigns the
converted element to the last segment in the reached node.  setAt is that
walk-and-assign composite on the segment list; the argument v stands for
the already codec-converted element (anyToTree is outside the tree core). -/
def setAt : Node → List Str → Value → Node
  | n, [], _ => n
  | n, [last], v => nodeSet n last v
  | n, e :: rest, v =>
    let child : Node :=
      match lookupV n e with
      | some (Value.node m) => m
      | _ => []
    nodeSet n e (Value.node (setAt child rest v))

/-- Node.Set on a path string. -/
def nodeSetPath (n : Node) (path : Str) (v : Value) : Node :=
  setAt n (pathSplit path) v

/-- Errors of Node.Get (tree/error.go). -/
inductive GetErr : Type where
  | pathInsideValue
  | elementNotFound
deriving DecidableEq

/-- The navigation loop of Node.Get (node.go:72): walk the split path;
descending into a non-node fails with ErrPathInsideValue, a missing key
fails with ErrElementNotFound.  The found element (handed to the codec in
Go) is returned. -/
def getRaw : Value → List Str → Except GetErr Value
  | v, [] => Except.ok v
  | v, e :: rest =>
    match v with
    | Value.node n =>
      match lookupV n e with
      | some c => getRaw c rest
      | none => Except.error GetErr.elementNotFound
    | _ => Except.error GetErr.pathInsideValue

/-- Node.Get on a path string. -/
def nodeGet (n : Node) (path : Str) : Except GetErr Value :=
  getRaw (Value.node n) (pathSplit path)

/-- Abstract store read outcomes: a storage's Read() either yields a tree
or an error (storages themselves are external collaborators; a store is
modelled by its read result). -/
abbrev StoreErr := Nat

/-- The loop body of readConfig (configdb.go:76) after reversal: stores
are visited from the last index to index 0, each read tree merged into
the accumulator; the first failing read aborts the whole load. -/
def readConfigRev : List (Except StoreErr Node) → Node → Except StoreErr Node
  | [], acc => Except.ok acc
  | r :: rest, acc =>
    match r with
    | Except.error e => Except.error e
    | Except.ok t => readConfigRev rest (nodeMerge acc t)

/-- readConfig (configdb.go:76): iterate stores from the highest index
(lowest priority) down to index 0, merging into an empty accumulator. -/
def readConfig (stores : List (Except StoreErr Node)) : Except StoreErr Node :=
  readConfigRev stores.reverse []

/-- The Config tree produced by New. -/
structure ConfigState where
  tree : Node

/-- New (configdb.go:136): build the initial tree with readConfig; a
failing store read is fatal and the error is returned, no Config is
produced. -/
def newConfig (stores : List (Except StoreErr Node)) :
    Except StoreErr ConfigState :=
  match readConfig stores with
  | Except.ok t => Except.ok ⟨t⟩
  | Except.error e => Except.error e

/-- State shared between the event-handler task and the tree-update task:
the authoritative tree (owned by the tree-update goroutine) and the
content of treeChan, a channel of capacity 1 (configdb.go:142), so at
most one recomputed tree is ever buffered. -/
structure LoopState where
  authTree : Node
  queued : Option Node

/-- The change-notification arm of the event handler (configdb.go:160):
re-read all stores; on error only log and continue, leaving everything
unchanged; on success write the tree into treeChan without blocking,
replacing any still-queued tree (the select/default drain at
configdb.go:167). -/
def handleChange (stores : List (Except StoreErr Node)) (s : LoopState) :
    LoopState :=
  match readConfig stores with
  | Except.error _ => s
  | Except.ok t => { s with queued := some t }

/-- One filter step of sendChanges (configdb.go:208): the changed paths
that contain the listener filter path. -/
def filterByPath (lp : Str) (ps : List Str) : List Str :=
  ps.filter fun p => pathContains p lp

/-- sendChanges (configdb.go:208), as the list of callback invocations it
performs for one listener in one dispatch round: for each filter path of
the listener, the three changed-path lists are filtered by PathContains,
and the callback is invoked with them when at least one is non-empty. -/
def sendChanges : List Str → List Str → List Str → List Str →
    List (List Str × List Str × List Str)
  | [], _, _, _ => []
  | lp :: rest, modified, added, removed =>
    let m := filterByPath lp modified
    let a := filterByPath lp added
    let r := filterByPath lp removed
    (if 0 < m.length ∨ 0 < a.length ∨ 0 < r.length then [(m, a, r)] else [])
      ++ sendChanges rest modified added removed

/-- A Go number handed to tree.NumberCreate: any integer type, or a float
represented by its exact rational value. -/
inductive GoNum : Type where
  | int : Int → GoNum
  | float : ℚ → GoNum

/-- Decimal digits of a natural number (fmt %d). -/
def natStr (n : Nat) : Str := Nat.toDigits 10 n

/-- fmt.Sprintf of an integer with the d verb: exact decimal text. -/
def intStr (i : Int) : Str :=
  if i < 0 then '-' :: natStr i.natAbs else natStr i.natAbs

/-- fmt.Sprintf of a non-negative float with the f verb, modelled on the
float's exact rational value: the value is rounded to six decimal places
(n below is the floor of q * 1000000 + 1 / 2, computed on numerator and
denominator) and printed with exactly six digits after the period (Go
rounds ties to even on the exact binary value; the inputs used below have
no ties). -/
def fmtF (q : ℚ) : Str :=
  let n : Int := (2 * q.num * 1000000 + (q.den : Int)).fdiv (2 * (q.den : Int))
  let m : Nat := n.toNat
  let ip := m / 1000000
  let fp := m % 1000000
  let fpd := natStr fp
  natStr ip ++ '.' :: (List.replicate (6 - fpd.length) '0' ++ fpd)

/-- tree.NumberCreate (number.go:18): integers are formatted with the d
verb, floats with the f verb. -/
def numberCreate : GoNum → Str
  | GoNum.int i => intStr i
  | GoNum.float q => fmtF q

/-- Whether a value is a nested node (the v.(Node) type assertion). -/
def isNodeV : Value → Bool
  | Value.node _ => true
  | _ => false

mutual

/-- Well-formedness of a tree value: node subtrees are well-formed
nodes. -/
inductive WfValue : Value → Prop where
  | node : ∀ {n : Node}, WfNode n → WfValue (Value.node n)
  | vlist : ∀ l, WfValue (Value.vlist l)
  | vbool : ∀ x, WfValue (Value.vbool x)
  | vstr : ∀ s, WfValue (Value.vstr s)
  | vnum : ∀ s, WfValue (Value.vnum s)
  | vnull : WfValue Value.vnull

/-- Well-formedness of a node, as Go maps guarantee and node.go:20
documents: keys are unique within each node and contain no period, and
node values are recursively well-formed. -/
inductive WfNode : Node → Prop where
  | nil : WfNode []
  | cons : ∀ {k : Str} {v : Value} {rest : Node},
      ('.' ∉ k) → (k ∉ keys rest) → WfValue v → WfNode rest →
      WfNode ((k, v) :: rest)

end

/-- A path tail as produced by compare: either nothing or a separator
followed by more path text. -/
def headDotOrNil (t : Str) : Prop := t = [] ∨ ∃ r : Str, t = '.' :: r

/- ------------------------------------------------------------------ -/
/- Helper lemmas about the map model.                                  -/
/- ------------------------------------------------------------------ -/

theorem lookupV_eq_none {n : Node} {k : Str} :
    lookupV n k = none ↔ k ∉ keys n := by
  induction n with
  | nil => simp [lookupV, keys]
  | cons hd rest ih =>
    obtain ⟨k2, v2⟩ := hd
    by_cases hk : k2 = k
    · subst hk; simp [lookupV, keys]
    · simp [lookupV, hk, keys] at ih ⊢
      exact ⟨fun h => ⟨fun he => hk he.symm, ih.mp h⟩, fun h => ih.mpr h.2⟩

theorem lookupV_mem_keys {n : Node} {k : Str} {v : Value}
    (h : lookupV n k = some v) : k ∈ keys n := by
  by_contra hc
  rw [← lookupV_eq_none] at hc
  rw [h] at hc
  exact Option.noConfusion hc

theorem lookupV_nodeSet_self (n : Node) (k : Str) (v : Value) :
    lookupV (nodeSet n k v) k = some v := by
  induction n with
  | nil => simp [nodeSet, lookupV]
  | cons hd rest ih =>
    obtain ⟨k2, v2⟩ := hd
    by_cases hk : k2 = k
    · subst hk; simp [nodeSet, lookupV]
    · simp [nodeSet, lookupV, hk, ih]

theorem lookupV_nodeSet_other {n : Node} {k k2 : Str} {v : Value}
    (h : k2 ≠ k) : lookupV (nodeSet n k v) k2 = lookupV n k2 := by
  have hks : ¬ (k = k2) := fun he => h he.symm
  induction n with
  | nil => simp [nodeSet, lookupV, hks]
  | cons hd rest ih =>
    obtain ⟨k3, v3⟩ := hd
    simp only [nodeSet]
    by_cases hk : k3 = k
    · rw [if_pos hk]
      simp only [lookupV]
      rw [if_neg hks]
      have hne : ¬ (k3 = k2) := by rw [hk]; exact hks
      rw [if_neg hne]
    · rw [if_neg hk]
      simp only [lookupV]
      by_cases hk2 : k3 = k2
      · rw [if_pos hk2, if_pos hk2]
      · rw [if_neg hk2, if_neg hk2, ih]

theorem keys_nodeSet_mem {n : Node} {k : Str} (v : Value)
    (h : k ∈ keys n) : keys (nodeSet n k v) = keys n := by
  induction n with
  | nil => simp [keys] at h
  | cons hd rest ih =>
    obtain ⟨k2, v2⟩ := hd
    simp only [nodeSet]
    by_cases hk : k2 = k
    · rw [if_pos hk]; simp [keys, hk]
    · rw [if_neg hk]
      have hmem : k ∈ keys rest := by
        simp only [keys, List.map_cons, List.mem_cons] at h
        rcases h with h | h
        · exact absurd h.symm hk
        · exact h
      have hrec := ih hmem
      simp only [keys, List.map_cons] at hrec ⊢
      rw [hrec]

theorem keys_nodeSet_notMem {n : Node} {k : Str} (v : Value)
    (h : k ∉ keys n) : keys (nodeSet n k v) = keys n ++ [k] := by
  induction n with
  | nil => simp [nodeSet, keys]
  | cons hd rest ih =>
    obtain ⟨k2, v2⟩ := hd
    simp only [keys, List.map_cons, List.mem_cons, not_or] at h
    obtain ⟨h1, h2⟩ := h
    have hne : ¬ (k2 = k) := by intro he; exact h1 he.symm
    simp only [nodeSet, if_neg hne]
    have hrec := ih h2
    simp only [keys, List.map_cons] at hrec ⊢
    simp [hrec]

theorem nodup_nodeSet {n : Node} {k : Str} (v : Value)
    (h : (keys n).Nodup) : (keys (nodeSet n k v)).Nodup := by
  by_cases hm : k ∈ keys n
  · rw [keys_nodeSet_mem v hm]; exact h
  · rw [keys_nodeSet_notMem v hm]
    simpa [List.nodup_append] using ⟨h, hm⟩

/- ------------------------------------------------------------------ -/
/- Merge: lookup characterisation (claim C1).                          -/
/- ------------------------------------------------------------------ -/

theorem nodeMerge_lookup : ∀ (b a : Node), (keys b).Nodup → ∀ k : Str,
    lookupV (nodeMerge a b) k =
      match lookupV a k, lookupV b k with
      | some (Value.node na), some (Value.node nb) =>
        some (Value.node (nodeMerge na nb))
      | _, some vb => some vb
      | some va, none => some va
      | none, none => none := by
  intro b
  induction b with
  | nil =>
    intro a _ k
    simp only [nodeMerge, lookupV]
    cases h : lookupV a k with
    | none => rfl
    | some va => cases va <;> rfl
  | cons hd rest ih =>
    obtain ⟨kb, vNew⟩ := hd
    intro a hnd k
    simp only [keys, List.map_cons, List.nodup_cons] at hnd
    obtain ⟨hkb, hrest⟩ := hnd
    simp only [nodeMerge]
    rw [ih _ hrest k]
    by_cases hkk : k = kb
    · subst hkk
      have hrn : lookupV rest k = none := by
        rw [lookupV_eq_none]; exact hkb
      have hcons : lookupV ((k, vNew) :: rest) k = some vNew := by
        simp [lookupV]
      rw [hrn, hcons]
      cases hA : lookupV a k with
      | some v =>
        simp only [hA, lookupV_nodeSet_self]
        cases v <;> cases vNew <;> simp [valueMerge]
      | none => simp only [hA, lookupV_nodeSet_self]
    · have hcons : lookupV ((kb, vNew) :: rest) k = lookupV rest k := by
        have : ¬ (kb = k) := fun he => hkk he.symm
        simp [lookupV, this]
      rw [hcons]
      cases hAb : lookupV a kb with
      | some v => simp only [hAb, lookupV_nodeSet_other hkk]
      | none => simp only [hAb, lookupV_nodeSet_other hkk]

/-- Claim C1: after A.Merge(B), at every key present in both trees the
result holds the recursive merge when both values are nodes and otherwise
exactly B's value (a list at a key is replaced wholesale, never merged
element-wise); every key present only in A keeps A's value, and every key
present only in B is added with B's value. -/
theorem merge_per_key (a b : Node) (ha : (keys a).Nodup)
    (hb : (keys b).Nodup) (k : Str) :
    (∀ na nb, lookupV a k = some (Value.node na) →
      lookupV b k = some (Value.node nb) →
      lookupV (nodeMerge a b) k = some (Value.node (nodeMerge na nb))) ∧
    (∀ va vb, lookupV a k = some va → lookupV b k = some vb →
      (isNodeV va = false ∨ isNodeV vb = false) →
      lookupV (nodeMerge a b) k = some vb) ∧
    (∀ va, lookupV a k = some va → lookupV b k = none →
      lookupV (nodeMerge a b) k = some va) ∧
    (lookupV a k = none → lookupV (nodeMerge a b) k = lookupV b k) := by
  have hmain := nodeMerge_lookup b a hb k
  refine ⟨?_, ?_, ?_, ?_⟩
  · intro na nb h1 h2
    rw [hmain, h1, h2]
  · intro va vb h1 h2 h3
    rw [hmain, h1, h2]
    rcases h3 with h3 | h3 <;> cases va <;> cases vb <;> simp_all [isNodeV]
  · intro va h1 h2
    rw [hmain, h1, h2]
    cases va <;> rfl
  · intro h1
    rw [hmain, h1]
    cases h2 : lookupV b k with
    | none => rfl
    | some vb => rfl

/-- Witness for merge_per_key: two concrete trees where the shared key x
holds a number in A and a list in B; the merge keeps B's list. -/
theorem merge_per_key_witness :
    lookupV (nodeMerge
      [(chars ("x"), Value.vnum (chars ("1"))),
       (chars ("n"), Value.node [(chars ("i"), Value.vnum (chars ("1")))])]
      [(chars ("x"), Value.vlist []),
       (chars ("n"), Value.node [(chars ("j"), Value.vnum (chars ("2")))]),
       (chars ("y"), Value.vbool true)])
      (chars ("x")) = some (Value.vlist []) :=
  (merge_per_key _ _ (by decide) (by decide) (chars ("x"))).2.1
    (Value.vnum (chars ("1"))) (Value.vlist []) rfl rfl (Or.inl rfl)

/- ------------------------------------------------------------------ -/
/- Compare equals its specification (claim C2).                        -/
/- ------------------------------------------------------------------ -/

theorem compareNew_nil_right (a : Node) (pre : Str) :
    compareNew a [] pre = [] := by
  simp [compareNew]

theorem compareOld_nil_right : ∀ N : Nat, ∀ (n : Node) (pre : Str),
    sizeOf n ≤ N → compareOld n [] pre = ⟨[], [], allPaths n pre⟩ := by
  intro N
  induction N using Nat.strong_induction_on with
  | _ N ih =>
    intro n pre hs
    cases n with
    | nil => simp [compareOld, allPaths]
    | cons hd rest =>
      obtain ⟨k, v⟩ := hd
      simp only [List.cons.sizeOf_spec, Prod.mk.sizeOf_spec] at hs
      have htail : compareOld rest [] pre = ⟨[], [], allPaths rest pre⟩ := by
        have hlt : sizeOf rest < N := by omega
        exact ih _ hlt rest pre le_rfl
      cases v with
      | node na =>
        have hna : compareOld na [] (pre ++ (k ++ ['.'])) =
            ⟨[], [], allPaths na (pre ++ (k ++ ['.']))⟩ := by
          have hlt : sizeOf na < N := by simp at hs; omega
          exact ih _ hlt na _ le_rfl
        simp [compareOld, lookupV, removedEntry, compareNode,
          compareNew_nil_right, htail, hna, allPaths]
      | vlist l => simp [compareOld, lookupV, removedEntry, htail, allPaths]
      | vbool x => simp [compareOld, lookupV, removedEntry, htail, allPaths]
      | vstr x => simp [compareOld, lookupV, removedEntry, htail, allPaths]
      | vnum x => simp [compareOld, lookupV, removedEntry, htail, allPaths]
      | vnull => simp [compareOld, lookupV, removedEntry, htail, allPaths]

theorem compareNode_nil_right (n : Node) (pre : Str) :
    compareNode n [] pre = ⟨[], [], allPaths n pre⟩ := by
  simp [compareNode, compareOld_nil_right (sizeOf n) n pre le_rfl,
    compareNew_nil_right]

theorem compareOld_nil_left (b : Node) (pre : Str) :
    compareOld [] b pre = ⟨[], [], []⟩ := by
  simp [compareOld]

theorem compareNew_nil_left : ∀ N : Nat, ∀ (b : Node) (pre : Str),
    sizeOf b ≤ N → compareNew [] b pre = allPaths b pre := by
  intro N
  induction N using Nat.strong_induction_on with
  | _ N ih =>
    intro b pre hs
    cases b with
    | nil => simp [compareNew, allPaths]
    | cons hd rest =>
      obtain ⟨k, vNew⟩ := hd
      simp only [List.cons.sizeOf_spec, Prod.mk.sizeOf_spec] at hs
      have htail : compareNew [] rest pre = allPaths rest pre := by
        have hlt : sizeOf rest < N := by omega
        exact ih _ hlt rest pre le_rfl
      cases vNew with
      | node nb =>
        have hnb : compareNew [] nb (pre ++ (k ++ ['.'])) =
            allPaths nb (pre ++ (k ++ ['.'])) := by
          have hlt : sizeOf nb < N := by simp at hs; omega
          exact ih _ hlt nb _ le_rfl
        simp [compareNew, lookupV, addedPaths, compareNode,
          compareOld_nil_left, htail, hnb, allPaths]
      | vlist l => simp [compareNew, lookupV, addedPaths, htail, allPaths]
      | vbool x => simp [compareNew, lookupV, addedPaths, htail, allPaths]
      | vstr x => simp [compareNew, lookupV, addedPaths, htail, allPaths]
      | vnum x => simp [compareNew, lookupV, addedPaths, htail, allPaths]
      | vnull => simp [compareNew, lookupV, addedPaths, htail, allPaths]

theorem compareNode_nil_left (b : Node) (pre : Str) :
    compareNode [] b pre = ⟨[], allPaths b pre, []⟩ := by
  simp [compareNode, compareOld_nil_left,
    compareNew_nil_left (sizeOf b) b pre le_rfl]

theorem removedEntry_eq_spec (v : Value) (pk : Str) :
    removedEntry v pk = removedEntrySpec v pk := by
  cases v <;> simp [removedEntry, removedEntrySpec, compareNode_nil_right]

theorem addedPaths_eq_spec (v : Value) (pk : Str) :
    addedPaths v pk = addedPathsSpec v pk := by
  cases v <;> simp [addedPaths, addedPathsSpec, compareNode_nil_left]

theorem compareNew_eq_spec : ∀ (b a : Node) (pre : Str),
    compareNew a b pre = compareSpecNewOnly a b pre := by
  intro b
  induction b with
  | nil => intro a pre; simp [compareNew, compareSpecNewOnly]
  | cons hd rest ih =>
    obtain ⟨k, vNew⟩ := hd
    intro a pre
    cases hak : lookupV a k <;>
      simp [compareNew, compareSpecNewOnly, hak, addedPaths_eq_spec, ih]

theorem compare_eq_spec_all : ∀ N : Nat,
    (∀ (a b : Node) (pre : Str), sizeOf a + sizeOf b ≤ N →
      compareOld a b pre = compareSpecShared a b pre) ∧
    (∀ (v w : Value) (pk : Str), sizeOf v + sizeOf w ≤ N →
      valueDiff v w pk = valueDiffSpec v w pk) ∧
    (∀ (a b : Node) (pre : Str), sizeOf a + sizeOf b ≤ N →
      compareNode a b pre = compareSpecNode a b pre) := by
  intro N
  induction N using Nat.strong_induction_on with
  | _ N ih =>
    have hVal : ∀ (v w : Value) (pk : Str), sizeOf v + sizeOf w ≤ N →
        valueDiff v w pk = valueDiffSpec v w pk := by
      intro v w pk hs
      cases v with
      | node na =>
        cases w with
        | node nb =>
          have hlt : sizeOf na + sizeOf nb < N := by simp at hs; omega
          have hrec := (ih _ hlt).2.2 na nb (pk ++ ['.']) le_rfl
          simp [valueDiff, valueDiffSpec, hrec]
        | vlist l => simp [valueDiff, valueDiffSpec, compareNode_nil_right]
        | vbool x => simp [valueDiff, valueDiffSpec, compareNode_nil_right]
        | vstr x => simp [valueDiff, valueDiffSpec, compareNode_nil_right]
        | vnum x => simp [valueDiff, valueDiffSpec, compareNode_nil_right]
        | vnull => simp [valueDiff, valueDiffSpec, compareNode_nil_right]
      | vlist l =>
        cases w <;> simp [valueDiff, valueDiffSpec, compareNode_nil_left]
      | vbool x =>
        cases w <;> simp [valueDiff, valueDiffSpec, compareNode_nil_left]
      | vstr x =>
        cases w <;> simp [valueDiff, valueDiffSpec, compareNode_nil_left]
      | vnum x =>
        cases w <;> simp [valueDiff, valueDiffSpec, compareNode_nil_left]
      | vnull =>
        cases w <;> simp [valueDiff, valueDiffSpec, compareNode_nil_left]
    have hOld : ∀ (a b : Node) (pre : Str), sizeOf a + sizeOf b ≤ N →
        compareOld a b pre = compareSpecShared a b pre := by
      intro a b pre hs
      cases a with
      | nil => simp [compareOld, compareSpecShared]
      | cons hd restA =>
        obtain ⟨k, v⟩ := hd
        simp only [List.cons.sizeOf_spec, Prod.mk.sizeOf_spec] at hs
        have htail : compareOld restA b pre = compareSpecShared restA b pre := by
          have hlt : sizeOf restA + sizeOf b < N := by omega
          exact (ih _ hlt).1 restA b pre le_rfl
        cases hbk : lookupV b k with
        | some vNew =>
          have hw := sizeOf_lookupV hbk
          have hv : valueDiff v vNew (pre ++ k) = valueDiffSpec v vNew (pre ++ k) :=
            hVal v vNew _ (by omega)
          simp [compareOld, compareSpecShared, hbk, hv, htail]
        | none =>
          simp [compareOld, compareSpecShared, hbk, removedEntry_eq_spec, htail]
    have hNode : ∀ (a b : Node) (pre : Str), sizeOf a + sizeOf b ≤ N →
        compareNode a b pre = compareSpecNode a b pre := by
      intro a b pre hs
      simp [compareNode, compareSpecNode, hOld a b pre hs, compareNew_eq_spec]
    exact ⟨hOld, hVal, hNode⟩

/- ------------------------------------------------------------------ -/
/- Disjointness and freedom from duplicates of Compare (claim C10).    -/
/- ------------------------------------------------------------------ -/

theorem keyInj : ∀ (k1 k2 t1 t2 : Str), '.' ∉ k1 → '.' ∉ k2 →
    headDotOrNil t1 → headDotOrNil t2 → k1 ++ t1 = k2 ++ t2 →
    k1 = k2 ∧ t1 = t2 := by
  intro k1
  induction k1 with
  | nil =>
    intro k2 t1 t2 h1 h2 ht1 ht2 he
    cases k2 with
    | nil => simpa using he
    | cons c k2p =>
      rcases ht1 with h | ⟨r, h⟩
      · subst h; simp at he
      · subst h
        simp only [List.nil_append, List.cons_append, List.cons.injEq] at he
        exact absurd (he.1 ▸ List.mem_cons_self c k2p) h2
  | cons c k1p ih =>
    intro k2 t1 t2 h1 h2 ht1 ht2 he
    cases k2 with
    | nil =>
      rcases ht2 with h | ⟨r, h⟩
      · subst h; simp at he
      · subst h
        simp only [List.nil_append, List.cons_append, List.cons.injEq] at he
        exact absurd (he.1 ▸ List.mem_cons_self c k1p) h1
    | cons c2 k2p =>
      simp only [List.cons_append, List.cons.injEq] at he
      obtain ⟨hc, he2⟩ := he
      have h1p : '.' ∉ k1p := fun hm => h1 (List.mem_cons_of_mem _ hm)
      have h2p : '.' ∉ k2p := fun hm => h2 (List.mem_cons_of_mem _ hm)
      obtain ⟨hk, ht⟩ := ih k2p t1 t2 h1p h2p ht1 ht2 he2
      exact ⟨by rw [hc, hk], ht⟩

theorem wf_keys_dotFree : ∀ {n : Node}, WfNode n →
    ∀ k ∈ keys n, '.' ∉ k := by
  intro n
  induction n with
  | nil => intro _ k hk; simp [keys] at hk
  | cons hd rest ih =>
    obtain ⟨k2, v2⟩ := hd
    intro h k hk
    cases h with
    | cons hdot hmem hv hrest =>
      simp only [keys, List.map_cons, List.mem_cons] at hk
      rcases hk with rfl | hk
      · exact hdot
      · exact ih hrest k hk

theorem wfValue_of_lookup : ∀ {b : Node} {k : Str} {w : Value},
    WfNode b → lookupV b k = some w → WfValue w := by
  intro b
  induction b with
  | nil => intro k w _ h; simp [lookupV] at h
  | cons hd rest ih =>
    obtain ⟨k2, v2⟩ := hd
    intro k w hwf h
    cases hwf with
    | cons hdot hmem hv hrest =>
      by_cases hk : k2 = k
      · simp [lookupV, hk] at h
        exact h ▸ hv
      · simp [lookupV, hk] at h
        exact ih hrest h

theorem allPaths_shape : ∀ N : Nat, ∀ (n : Node) (pre s : Str),
    sizeOf n ≤ N → s ∈ allPaths n pre →
    ∃ k t, s = pre ++ (k ++ t) ∧ headDotOrNil t ∧ k ∈ keys n := by
  intro N
  induction N using Nat.strong_induction_on with
  | _ N ih =>
    intro n pre s hs hmem
    cases n with
    | nil => simp [allPaths] at hmem
    | cons hd rest =>
      obtain ⟨k, v⟩ := hd
      simp only [List.cons.sizeOf_spec, Prod.mk.sizeOf_spec] at hs
      have htail : s ∈ allPaths rest pre →
          ∃ k2 t, s = pre ++ (k2 ++ t) ∧ headDotOrNil t ∧ k2 ∈ keys rest := by
        intro hm
        have hlt : sizeOf rest < N := by omega
        exact ih _ hlt rest pre s le_rfl hm
      have hhead : s = pre ++ k →
          ∃ k2 t, s = pre ++ (k2 ++ t) ∧ headDotOrNil t ∧ k2 ∈ keys ((k, v) :: rest) := by
        intro hm
        exact ⟨k, [], by simp [hm], Or.inl rfl, by simp [keys]⟩
      have hinner : ∀ m : Node, sizeOf m < sizeOf v + 1 →
          s ∈ allPaths m (pre ++ k ++ ['.']) →
          ∃ k2 t, s = pre ++ (k2 ++ t) ∧ headDotOrNil t ∧
            k2 ∈ keys ((k, v) :: rest) := by
        intro m hszm hm
        have hlt : sizeOf m < N := by omega
        obtain ⟨k3, t3, he, _, _⟩ := ih _ hlt m (pre ++ k ++ ['.']) s le_rfl hm
        refine ⟨k, '.' :: (k3 ++ t3), ?_, Or.inr ⟨_, rfl⟩, by simp [keys]⟩
        simp [he, List.append_assoc]
      cases v with
      | node m =>
        simp only [allPaths, List.cons_append, List.mem_cons, List.mem_append] at hmem
        rcases hmem with rfl | hm | hm
        · exact hhead rfl
        · exact hinner m (by simp; omega) hm
        · obtain ⟨k2, t, h1, h2, h3⟩ := htail hm
          exact ⟨k2, t, h1, h2, by simp [keys] at h3 ⊢; right; exact h3⟩
      | vlist l =>
        simp only [allPaths, List.cons_append, List.nil_append, List.mem_cons] at hmem
        rcases hmem with rfl | hm
        · exact hhead rfl
        · obtain ⟨k2, t, h1, h2, h3⟩ := htail hm
          exact ⟨k2, t, h1, h2, by simp [keys] at h3 ⊢; right; exact h3⟩
      | vbool x =>
        simp only [allPaths, List.cons_append, List.nil_append, List.mem_cons] at hmem
        rcases hmem with rfl | hm
        · exact hhead rfl
        · obtain ⟨k2, t, h1, h2, h3⟩ := htail hm
          exact ⟨k2, t, h1, h2, by simp [keys] at h3 ⊢; right; exact h3⟩
      | vstr x =>
        simp only [allPaths, List.cons_append, List.nil_append, List.mem_cons] at hmem
        rcases hmem with rfl | hm
        · exact hhead rfl
        · obtain ⟨k2, t, h1, h2, h3⟩ := htail hm
          exact ⟨k2, t, h1, h2, by simp [keys] at h3 ⊢; right; exact h3⟩
      | vnum x =>
        simp only [allPaths, List.cons_append, List.nil_append, List.mem_cons] at hmem
        rcases hmem with rfl | hm
        · exact hhead rfl
        · obtain ⟨k2, t, h1, h2, h3⟩ := htail hm
          exact ⟨k2, t, h1, h2, by simp [keys] at h3 ⊢; right; exact h3⟩
      | vnull =>
        simp only [allPaths, List.cons_append, List.nil_append, List.mem_cons] at hmem
        rcases hmem with rfl | hm
        · exact hhead rfl
        · obtain ⟨k2, t, h1, h2, h3⟩ := htail hm
          exact ⟨k2, t, h1, h2, by simp [keys] at h3 ⊢; right; exact h3⟩

theorem path_ne_of_key_ne {pre k k2 t t2 : Str} (hk : '.' ∉ k)
    (hk2 : '.' ∉ k2) (ht : headDotOrNil t) (ht2 : headDotOrNil t2)
    (hne : k ≠ k2) : pre ++ (k ++ t) ≠ pre ++ (k2 ++ t2) := by
  intro he
  have hc := List.append_cancel_left he
  exact hne (keyInj k k2 t t2 hk hk2 ht ht2 hc).1

theorem not_mem_allPaths_self (pk : Str) (n : Node) :
    pk ∉ allPaths n (pk ++ ['.']) := by
  intro h
  obtain ⟨k3, t3, he, _, _⟩ := allPaths_shape (sizeOf n) n _ pk le_rfl h
  have := congrArg List.length he
  simp at this

theorem allPaths_nodup : ∀ N : Nat, ∀ (n : Node) (pre : Str),
    sizeOf n ≤ N → WfNode n → (allPaths n pre).Nodup := by
  intro N
  induction N using Nat.strong_induction_on with
  | _ N ih =>
    intro n pre hs hwf
    cases n with
    | nil => simp [allPaths]
    | cons hd rest =>
      obtain ⟨k, v⟩ := hd
      simp only [List.cons.sizeOf_spec, Prod.mk.sizeOf_spec] at hs
      cases hwf with
      | cons hdot hmem hv hrest =>
        have hdotrest := wf_keys_dotFree hrest
        have htailnd : (allPaths rest pre).Nodup := by
          have hlt : sizeOf rest < N := by omega
          exact ih _ hlt rest pre le_rfl hrest
        have hknotail : (pre ++ k) ∉ allPaths rest pre := by
          intro hmem2
          obtain ⟨k2, t2, he, ht2, hk2⟩ :=
            allPaths_shape (sizeOf rest) rest pre _ le_rfl hmem2
          have he2 : pre ++ (k ++ []) = pre ++ (k2 ++ t2) := by
            simpa using he
          have hne : k ≠ k2 := fun h => hmem (h ▸ hk2)
          exact path_ne_of_key_ne hdot (hdotrest k2 hk2) (Or.inl rfl) ht2 hne he2
        cases v with
        | node m =>
          have hinnershape : ∀ s ∈ allPaths m (pre ++ k ++ ['.']),
              ∃ u, s = pre ++ (k ++ ('.' :: u)) ∧ headDotOrNil ('.' :: u) := by
            intro s hsm
            obtain ⟨k3, t3, he, _, _⟩ :=
              allPaths_shape (sizeOf m) m _ s le_rfl hsm
            exact ⟨k3 ++ t3, by simp [he, List.append_assoc], Or.inr ⟨_, rfl⟩⟩
          have hwfm : WfNode m := by cases hv with | node h => exact h
          have hinnernd : (allPaths m (pre ++ k ++ ['.'])).Nodup := by
            have hlt : sizeOf m < N := by simp at hs; omega
            exact ih _ hlt m _ le_rfl hwfm
          have hknotinner : (pre ++ k) ∉ allPaths m (pre ++ k ++ ['.']) := by
            intro hmem2
            obtain ⟨u, he, _⟩ := hinnershape _ hmem2
            have := congrArg List.length he
            simp at this
          have hdisj : (allPaths m (pre ++ k ++ ['.'])).Disjoint
              (allPaths rest pre) := by
            intro s hs1 hs2
            obtain ⟨u, he1, htu⟩ := hinnershape s hs1
            obtain ⟨k2, t2, he2, ht2, hk2⟩ :=
              allPaths_shape (sizeOf rest) rest pre s le_rfl hs2
            have hne : k ≠ k2 := fun h => hmem (h ▸ hk2)
            exact path_ne_of_key_ne hdot (hdotrest k2 hk2) htu ht2 hne
              (he1 ▸ he2)
          simp only [allPaths, List.cons_append, List.nodup_cons,
            List.mem_append, List.nodup_append]
          exact ⟨fun h => h.elim (fun h2 => hknotinner h2) (fun h2 => hknotail h2),
            hinnernd, htailnd, hdisj⟩
        | vlist l =>
          simp only [allPaths, List.cons_append, List.nil_append, List.nodup_cons]
          exact ⟨hknotail, htailnd⟩
        | vbool x =>
          simp only [allPaths, List.cons_append, List.nil_append, List.nodup_cons]
          exact ⟨hknotail, htailnd⟩
        | vstr x =>
          simp only [allPaths, List.cons_append, List.nil_append, List.nodup_cons]
          exact ⟨hknotail, htailnd⟩
        | vnum x =>
          simp only [allPaths, List.cons_append, List.nil_append, List.nodup_cons]
          exact ⟨hknotail, htailnd⟩
        | vnull =>
          simp only [allPaths, List.cons_append, List.nil_append, List.nodup_cons]
          exact ⟨hknotail, htailnd⟩

theorem removedEntrySpec_shape (v : Value) (pk s : Str)
    (hmem : s ∈ (removedEntrySpec v pk).modified ∨
      s ∈ (removedEntrySpec v pk).added ∨ s ∈ (removedEntrySpec v pk).removed) :
    ∃ t, s = pk ++ t ∧ headDotOrNil t := by
  cases v
  case node na =>
    simp only [removedEntrySpec, List.not_mem_nil, List.mem_cons, false_or] at hmem
    rcases hmem with rfl | h
    · exact ⟨[], by simp, Or.inl rfl⟩
    · obtain ⟨k3, t3, he, _, _⟩ := allPaths_shape (sizeOf na) na _ s le_rfl h
      exact ⟨'.' :: (k3 ++ t3), by simp [he, List.append_assoc], Or.inr ⟨_, rfl⟩⟩
  all_goals
    simp only [removedEntrySpec, List.not_mem_nil, List.mem_singleton,
      false_or] at hmem
  all_goals exact ⟨[], by simp [hmem], Or.inl rfl⟩

theorem addedPathsSpec_shape (v : Value) (pk s : Str)
    (hmem : s ∈ addedPathsSpec v pk) :
    ∃ t, s = pk ++ t ∧ headDotOrNil t := by
  cases v
  case node nb =>
    simp only [addedPathsSpec, List.mem_cons] at hmem
    rcases hmem with rfl | h
    · exact ⟨[], by simp, Or.inl rfl⟩
    · obtain ⟨k3, t3, he, _, _⟩ := allPaths_shape (sizeOf nb) nb _ s le_rfl h
      exact ⟨'.' :: (k3 ++ t3), by simp [he, List.append_assoc], Or.inr ⟨_, rfl⟩⟩
  all_goals simp only [addedPathsSpec, List.mem_singleton] at hmem
  all_goals exact ⟨[], by simp [hmem], Or.inl rfl⟩

theorem newOnly_shape : ∀ (b a : Node) (pre s : Str),
    s ∈ compareSpecNewOnly a b pre →
    ∃ k t, s = pre ++ (k ++ t) ∧ headDotOrNil t ∧ k ∈ keys b ∧
      lookupV a k = none := by
  intro b
  induction b with
  | nil => intro a pre s h; simp [compareSpecNewOnly] at h
  | cons hd rest ih =>
    obtain ⟨k, vNew⟩ := hd
    intro a pre s hmem
    cases hak : lookupV a k with
    | some w =>
      simp only [compareSpecNewOnly, hak, List.nil_append] at hmem
      obtain ⟨k2, t2, he, ht2, hk2, hl2⟩ := ih a pre s hmem
      exact ⟨k2, t2, he, ht2, by simp [keys] at hk2 ⊢; right; exact hk2, hl2⟩
    | none =>
      simp only [compareSpecNewOnly, hak, List.mem_append] at hmem
      rcases hmem with h | h
      · obtain ⟨t, he, ht⟩ := addedPathsSpec_shape vNew (pre ++ k) s h
        exact ⟨k, t, by simp [he, List.append_assoc], ht, by simp [keys], hak⟩
      · obtain ⟨k2, t2, he, ht2, hk2, hl2⟩ := ih a pre s h
        exact ⟨k2, t2, he, ht2, by simp [keys] at hk2 ⊢; right; exact hk2, hl2⟩

theorem spec_shapes : ∀ N : Nat,
    (∀ (v w : Value) (pk s : Str), sizeOf v + sizeOf w ≤ N →
      (s ∈ (valueDiffSpec v w pk).modified ∨ s ∈ (valueDiffSpec v w pk).added ∨
        s ∈ (valueDiffSpec v w pk).removed) →
      ∃ t, s = pk ++ t ∧ headDotOrNil t) ∧
    (∀ (a b : Node) (pre s : Str), sizeOf a + sizeOf b ≤ N →
      (s ∈ (compareSpecShared a b pre).modified ∨
        s ∈ (compareSpecShared a b pre).added ∨
        s ∈ (compareSpecShared a b pre).removed) →
      ∃ k t, s = pre ++ (k ++ t) ∧ headDotOrNil t ∧ k ∈ keys a) ∧
    (∀ (a b : Node) (pre s : Str), sizeOf a + sizeOf b ≤ N →
      (s ∈ (compareSpecNode a b pre).modified ∨
        s ∈ (compareSpecNode a b pre).added ∨
        s ∈ (compareSpecNode a b pre).removed) →
      ∃ k t, s = pre ++ (k ++ t) ∧ headDotOrNil t ∧
        (k ∈ keys a ∨ k ∈ keys b)) := by
  intro N
  induction N using Nat.strong_induction_on with
  | _ N ih =>
    have hVal : ∀ (v w : Value) (pk s : Str), sizeOf v + sizeOf w ≤ N →
        (s ∈ (valueDiffSpec v w pk).modified ∨
          s ∈ (valueDiffSpec v w pk).added ∨
          s ∈ (valueDiffSpec v w pk).removed) →
        ∃ t, s = pk ++ t ∧ headDotOrNil t := by
      intro v w pk s hs hmem
      cases v
      case node na =>
        cases w
        case node nb =>
          have hlt : sizeOf na + sizeOf nb < N := by simp at hs; omega
          simp only [valueDiffSpec] at hmem
          obtain ⟨k3, t3, he, _, _⟩ :=
            (ih _ hlt).2.2 na nb (pk ++ ['.']) s le_rfl hmem
          exact ⟨'.' :: (k3 ++ t3), by simp [he, List.append_assoc],
            Or.inr ⟨_, rfl⟩⟩
        all_goals
          (simp only [valueDiffSpec, List.not_mem_nil, List.mem_singleton,
            false_or, or_false] at hmem
           rcases hmem with rfl | h
           · exact ⟨[], by simp, Or.inl rfl⟩
           · obtain ⟨k3, t3, he, _, _⟩ :=
               allPaths_shape (sizeOf na) na _ s le_rfl h
             exact ⟨'.' :: (k3 ++ t3), by simp [he, List.append_assoc],
               Or.inr ⟨_, rfl⟩⟩)
      all_goals
        (cases w
         case node nb =>
           simp only [valueDiffSpec, List.not_mem_nil, List.mem_singleton,
             false_or, or_false] at hmem
           rcases hmem with rfl | h
           · exact ⟨[], by simp, Or.inl rfl⟩
           · obtain ⟨k3, t3, he, _, _⟩ :=
               allPaths_shape (sizeOf nb) nb _ s le_rfl h
             exact ⟨'.' :: (k3 ++ t3), by simp [he, List.append_assoc],
               Or.inr ⟨_, rfl⟩⟩
         all_goals
           (simp only [valueDiffSpec] at hmem
            split at hmem <;>
              simp only [List.not_mem_nil, List.mem_singleton, false_or,
                or_false, or_self] at hmem
            exact ⟨[], by simp [hmem], Or.inl rfl⟩))
    have hShared : ∀ (a b : Node) (pre s : Str), sizeOf a + sizeOf b ≤ N →
        (s ∈ (compareSpecShared a b pre).modified ∨
          s ∈ (compareSpecShared a b pre).added ∨
          s ∈ (compareSpecShared a b pre).removed) →
        ∃ k t, s = pre ++ (k ++ t) ∧ headDotOrNil t ∧ k ∈ keys a := by
      intro a b pre s hs hmem
      cases a with
      | nil => simp [compareSpecShared] at hmem
      | cons hd restA =>
        obtain ⟨k, v⟩ := hd
        simp only [List.cons.sizeOf_spec, Prod.mk.sizeOf_spec] at hs
        have htail : (s ∈ (compareSpecShared restA b pre).modified ∨
            s ∈ (compareSpecShared restA b pre).added ∨
            s ∈ (compareSpecShared restA b pre).removed) →
            ∃ k2 t, s = pre ++ (k2 ++ t) ∧ headDotOrNil t ∧ k2 ∈ keys restA := by
          intro hm
          have hlt : sizeOf restA + sizeOf b < N := by omega
          exact (ih _ hlt).2.1 restA b pre s le_rfl hm
        have hfin : ∀ k2 t, s = pre ++ (k2 ++ t) → headDotOrNil t →
            (k2 = k ∨ k2 ∈ keys restA) →
            ∃ k3 t3, s = pre ++ (k3 ++ t3) ∧ headDotOrNil t3 ∧
              k3 ∈ keys ((k, v) :: restA) := by
          intro k2 t he ht hk2
          refine ⟨k2, t, he, ht, ?_⟩
          simp only [keys, List.map_cons, List.mem_cons]
          rcases hk2 with rfl | h
          · exact Or.inl rfl
          · exact Or.inr h
        cases hbk : lookupV b k with
        | some w =>
          simp only [compareSpecShared, hbk, List.mem_append] at hmem
          rcases hmem with h | h | h
          all_goals rcases h with h | h
          · obtain ⟨t, he, ht⟩ := hVal v w (pre ++ k) s
              (by have := sizeOf_lookupV hbk; omega) (Or.inl h)
            exact hfin k t (by simp [he, List.append_assoc]) ht (Or.inl rfl)
          · obtain ⟨k2, t, he, ht, hk2⟩ := htail (Or.inl h)
            exact hfin k2 t he ht (Or.inr hk2)
          · obtain ⟨t, he, ht⟩ := hVal v w (pre ++ k) s
              (by have := sizeOf_lookupV hbk; omega) (Or.inr (Or.inl h))
            exact hfin k t (by simp [he, List.append_assoc]) ht (Or.inl rfl)
          · obtain ⟨k2, t, he, ht, hk2⟩ := htail (Or.inr (Or.inl h))
            exact hfin k2 t he ht (Or.inr hk2)
          · obtain ⟨t, he, ht⟩ := hVal v w (pre ++ k) s
              (by have := sizeOf_lookupV hbk; omega) (Or.inr (Or.inr h))
            exact hfin k t (by simp [he, List.append_assoc]) ht (Or.inl rfl)
          · obtain ⟨k2, t, he, ht, hk2⟩ := htail (Or.inr (Or.inr h))
            exact hfin k2 t he ht (Or.inr hk2)
        | none =>
          simp only [compareSpecShared, hbk, List.mem_append] at hmem
          rcases hmem with h | h | h
          all_goals rcases h with h | h
          · obtain ⟨t, he, ht⟩ := removedEntrySpec_shape v (pre ++ k) s (Or.inl h)
            exact hfin k t (by simp [he, List.append_assoc]) ht (Or.inl rfl)
          · obtain ⟨k2, t, he, ht, hk2⟩ := htail (Or.inl h)
            exact hfin k2 t he ht (Or.inr hk2)
          · obtain ⟨t, he, ht⟩ := removedEntrySpec_shape v (pre ++ k) s
              (Or.inr (Or.inl h))
            exact hfin k t (by simp [he, List.append_assoc]) ht (Or.inl rfl)
          · obtain ⟨k2, t, he, ht, hk2⟩ := htail (Or.inr (Or.inl h))
            exact hfin k2 t he ht (Or.inr hk2)
          · obtain ⟨t, he, ht⟩ := removedEntrySpec_shape v (pre ++ k) s
              (Or.inr (Or.inr h))
            exact hfin k t (by simp [he, List.append_assoc]) ht (Or.inl rfl)
          · obtain ⟨k2, t, he, ht, hk2⟩ := htail (Or.inr (Or.inr h))
            exact hfin k2 t he ht (Or.inr hk2)
    have hNode : ∀ (a b : Node) (pre s : Str), sizeOf a + sizeOf b ≤ N →
        (s ∈ (compareSpecNode a b pre).modified ∨
          s ∈ (compareSpecNode a b pre).added ∨
          s ∈ (compareSpecNode a b pre).removed) →
        ∃ k t, s = pre ++ (k ++ t) ∧ headDotOrNil t ∧
          (k ∈ keys a ∨ k ∈ keys b) := by
      intro a b pre s hs hmem
      simp only [compareSpecNode, List.mem_append] at hmem
      have hsh : (s ∈ (compareSpecShared a b pre).modified ∨
          s ∈ (compareSpecShared a b pre).added ∨
          s ∈ (compareSpecShared a b pre).removed) →
          ∃ k t, s = pre ++ (k ++ t) ∧ headDotOrNil t ∧
            (k ∈ keys a ∨ k ∈ keys b) := by
        intro h
        obtain ⟨k, t, he, ht, hk⟩ := hShared a b pre s hs h
        exact ⟨k, t, he, ht, Or.inl hk⟩
      rcases hmem with h | h | h
      · exact hsh (Or.inl h)
      · rcases h with h | h
        · exact hsh (Or.inr (Or.inl h))
        · obtain ⟨k, t, he, ht, hk, _⟩ := newOnly_shape b a pre s h
          exact ⟨k, t, he, ht, Or.inr hk⟩
      · exact hsh (Or.inr (Or.inr h))
    exact ⟨hVal, hShared, hNode⟩

/-- Membership in any of the three lists of a diff. -/
def inDiff (d : Diff) (s : Str) : Prop :=
  s ∈ d.modified ∨ s ∈ d.added ∨ s ∈ d.removed

/-- The three lists of a diff are duplicate-free and pairwise disjoint. -/
def DiffOk (d : Diff) : Prop :=
  d.modified.Nodup ∧ d.added.Nodup ∧ d.removed.Nodup ∧
  d.modified.Disjoint d.added ∧ d.modified.Disjoint d.removed ∧
  d.added.Disjoint d.removed

theorem diffOk_merge (d e : Diff) (hd : DiffOk d) (he : DiffOk e)
    (hx : ∀ s, inDiff d s → inDiff e s → False) :
    DiffOk ⟨d.modified ++ e.modified, d.added ++ e.added,
      d.removed ++ e.removed⟩ := by
  obtain ⟨d1, d2, d3, d4, d5, d6⟩ := hd
  obtain ⟨e1, e2, e3, e4, e5, e6⟩ := he
  refine ⟨?_, ?_, ?_, ?_, ?_, ?_⟩
  · rw [List.nodup_append]
    refine ⟨d1, e1, ?_⟩
    intro s hs hs2
    exact hx s (Or.inl hs) (Or.inl hs2)
  · rw [List.nodup_append]
    refine ⟨d2, e2, ?_⟩
    intro s hs hs2
    exact hx s (Or.inr (Or.inl hs)) (Or.inr (Or.inl hs2))
  · rw [List.nodup_append]
    refine ⟨d3, e3, ?_⟩
    intro s hs hs2
    exact hx s (Or.inr (Or.inr hs)) (Or.inr (Or.inr hs2))
  · intro s hs hs2
    rw [List.mem_append] at hs hs2
    rcases hs with hs | hs <;> rcases hs2 with hs2 | hs2
    · exact d4 hs hs2
    · exact hx s (Or.inl hs) (Or.inr (Or.inl hs2))
    · exact hx s (Or.inr (Or.inl hs2)) (Or.inl hs)
    · exact e4 hs hs2
  · intro s hs hs2
    rw [List.mem_append] at hs hs2
    rcases hs with hs | hs <;> rcases hs2 with hs2 | hs2
    · exact d5 hs hs2
    · exact hx s (Or.inl hs) (Or.inr (Or.inr hs2))
    · exact hx s (Or.inr (Or.inr hs2)) (Or.inl hs)
    · exact e5 hs hs2
  · intro s hs hs2
    rw [List.mem_append] at hs hs2
    rcases hs with hs | hs <;> rcases hs2 with hs2 | hs2
    · exact d6 hs hs2
    · exact hx s (Or.inr (Or.inl hs)) (Or.inr (Or.inr hs2))
    · exact hx s (Or.inr (Or.inr hs2)) (Or.inr (Or.inl hs))
    · exact e6 hs hs2

theorem addedPathsSpec_nodup (v : Value) (pk : Str) (hv : WfValue v) :
    (addedPathsSpec v pk).Nodup := by
  cases v
  case node nb =>
    have hwf : WfNode nb := by cases hv with | node h => exact h
    simp only [addedPathsSpec, List.nodup_cons]
    exact ⟨not_mem_allPaths_self pk nb,
      allPaths_nodup (sizeOf nb) nb _ le_rfl hwf⟩
  all_goals simp [addedPathsSpec]

theorem removedEntrySpec_ok (v : Value) (pk : Str) (hv : WfValue v) :
    DiffOk (removedEntrySpec v pk) := by
  cases v
  case node na =>
    have hwf : WfNode na := by cases hv with | node h => exact h
    refine ⟨List.nodup_nil, List.nodup_nil, ?_, ?_, ?_, ?_⟩
    · simp only [removedEntrySpec, List.nodup_cons]
      exact ⟨not_mem_allPaths_self pk na,
        allPaths_nodup (sizeOf na) na _ le_rfl hwf⟩
    · intro s hs hs2; simp [removedEntrySpec] at hs
    · intro s hs hs2; simp [removedEntrySpec] at hs
    · intro s hs hs2; simp [removedEntrySpec] at hs
  all_goals
    exact ⟨List.nodup_nil, List.nodup_nil, by simp [removedEntrySpec],
      by intro s hs hs2; simp [removedEntrySpec] at hs,
      by intro s hs hs2; simp [removedEntrySpec] at hs,
      by intro s hs hs2; simp [removedEntrySpec] at hs⟩

theorem newOnly_nodup : ∀ (b a : Node) (pre : Str), WfNode b →
    (compareSpecNewOnly a b pre).Nodup := by
  intro b
  induction b with
  | nil => intro a pre _; simp [compareSpecNewOnly]
  | cons hd rest ih =>
    obtain ⟨k, vNew⟩ := hd
    intro a pre hwf
    cases hwf with
    | cons hdot hmem hv hrest =>
      cases hak : lookupV a k with
      | some w =>
        simp only [compareSpecNewOnly, hak, List.nil_append]
        exact ih a pre hrest
      | none =>
        simp only [compareSpecNewOnly, hak]
        rw [List.nodup_append]
        refine ⟨addedPathsSpec_nodup vNew _ hv, ih a pre hrest, ?_⟩
        intro s hs hs2
        obtain ⟨t, he, ht⟩ := addedPathsSpec_shape vNew (pre ++ k) s hs
        obtain ⟨k2, t2, he2, ht2, hk2, _⟩ := newOnly_shape rest a pre s hs2
        have hne : k ≠ k2 := fun h => hmem (h ▸ hk2)
        exact path_ne_of_key_ne hdot (wf_keys_dotFree hrest k2 hk2) ht ht2 hne
          (by rw [← List.append_assoc, ← he, he2])

theorem spec_nd : ∀ N : Nat,
    (∀ (v w : Value) (pk : Str), sizeOf v + sizeOf w ≤ N →
      WfValue v → WfValue w → DiffOk (valueDiffSpec v w pk)) ∧
    (∀ (a b : Node) (pre : Str), sizeOf a + sizeOf b ≤ N →
      WfNode a → WfNode b → DiffOk (compareSpecShared a b pre)) ∧
    (∀ (a b : Node) (pre : Str), sizeOf a + sizeOf b ≤ N →
      WfNode a → WfNode b → DiffOk (compareSpecNode a b pre)) := by
  intro N
  induction N using Nat.strong_induction_on with
  | _ N ih =>
    have hVal : ∀ (v w : Value) (pk : Str), sizeOf v + sizeOf w ≤ N →
        WfValue v → WfValue w → DiffOk (valueDiffSpec v w pk) := by
      intro v w pk hs hv hw
      cases v
      case node na =>
        have hwfa : WfNode na := by cases hv with | node h => exact h
        cases w
        case node nb =>
          have hwfb : WfNode nb := by cases hw with | node h => exact h
          have hlt : sizeOf na + sizeOf nb < N := by simp at hs; omega
          simp only [valueDiffSpec]
          exact (ih _ hlt).2.2 na nb (pk ++ ['.']) le_rfl hwfa hwfb
        all_goals
          (refine ⟨by simp [valueDiffSpec], by simp [valueDiffSpec], ?_, ?_, ?_, ?_⟩
           · simp only [valueDiffSpec]
             exact allPaths_nodup (sizeOf na) na _ le_rfl hwfa
           · intro s hs1 hs2; simp [valueDiffSpec] at hs2
           · intro s hs1 hs2
             simp only [valueDiffSpec, List.mem_singleton] at hs1
             simp only [valueDiffSpec] at hs2
             exact not_mem_allPaths_self pk na (hs1 ▸ hs2)
           · intro s hs1 hs2; simp [valueDiffSpec] at hs1)
      all_goals
        (cases w
         case node nb =>
           have hwfb : WfNode nb := by cases hw with | node h => exact h
           refine ⟨by simp [valueDiffSpec], ?_, by simp [valueDiffSpec], ?_, ?_, ?_⟩
           · simp only [valueDiffSpec]
             exact allPaths_nodup (sizeOf nb) nb _ le_rfl hwfb
           · intro s hs1 hs2
             simp only [valueDiffSpec, List.mem_singleton] at hs1
             simp only [valueDiffSpec] at hs2
             exact not_mem_allPaths_self pk nb (hs1 ▸ hs2)
           · intro s hs1 hs2; simp [valueDiffSpec] at hs2
           · intro s hs1 hs2; simp [valueDiffSpec] at hs2
         all_goals
           (simp only [valueDiffSpec]
            split
            · exact ⟨List.nodup_nil, List.nodup_nil, List.nodup_nil,
                by intro s hs1 hs2; simp at hs1,
                by intro s hs1 hs2; simp at hs1,
                by intro s hs1 hs2; simp at hs1⟩
            · exact ⟨by simp, List.nodup_nil, List.nodup_nil,
                by intro s hs1 hs2; simp at hs2,
                by intro s hs1 hs2; simp at hs2,
                by intro s hs1 hs2; simp at hs1⟩))
    have hShared : ∀ (a b : Node) (pre : Str), sizeOf a + sizeOf b ≤ N →
        WfNode a → WfNode b → DiffOk (compareSpecShared a b pre) := by
      intro a b pre hs ha hb
      cases a with
      | nil =>
        simp only [compareSpecShared]
        exact ⟨List.nodup_nil, List.nodup_nil, List.nodup_nil,
          by intro s hs1 hs2; simp at hs1,
          by intro s hs1 hs2; simp at hs1,
          by intro s hs1 hs2; simp at hs1⟩
      | cons hd restA =>
        obtain ⟨k, v⟩ := hd
        simp only [List.cons.sizeOf_spec, Prod.mk.sizeOf_spec] at hs
        cases ha with
        | cons hdot hmem hv hrest =>
          have hrestOK : DiffOk (compareSpecShared restA b pre) := by
            have hlt : sizeOf restA + sizeOf b < N := by omega
            exact (ih _ hlt).2.1 restA b pre le_rfl hrest hb
          have htailshape : ∀ s, inDiff (compareSpecShared restA b pre) s →
              ∃ k2 t2, s = pre ++ (k2 ++ t2) ∧ headDotOrNil t2 ∧
                k2 ∈ keys restA := by
            intro s hsd
            exact (spec_shapes (sizeOf restA + sizeOf b)).2.1 restA b pre s
              le_rfl hsd
          have hcross : ∀ (d : Diff),
              (∀ s, inDiff d s → ∃ t, s = (pre ++ k) ++ t ∧ headDotOrNil t) →
              ∀ s, inDiff d s → inDiff (compareSpecShared restA b pre) s →
                False := by
            intro d hdshape s hsd hst
            obtain ⟨t, he, ht⟩ := hdshape s hsd
            obtain ⟨k2, t2, he2, ht2, hk2⟩ := htailshape s hst
            have hne : k ≠ k2 := fun h => hmem (h ▸ hk2)
            exact path_ne_of_key_ne hdot (wf_keys_dotFree hrest k2 hk2) ht ht2
              hne (by rw [← List.append_assoc, ← he, he2])
          cases hbk : lookupV b k with
          | some w =>
            have hw := sizeOf_lookupV hbk
            have hdOK : DiffOk (valueDiffSpec v w (pre ++ k)) :=
              hVal v w (pre ++ k) (by omega) hv (wfValue_of_lookup hb hbk)
            simp only [compareSpecShared, hbk]
            exact diffOk_merge _ _ hdOK hrestOK
              (hcross _ (fun s hsd =>
                (spec_shapes (sizeOf v + sizeOf w)).1 v w (pre ++ k) s le_rfl hsd))
          | none =>
            have hdOK : DiffOk (removedEntrySpec v (pre ++ k)) :=
              removedEntrySpec_ok v (pre ++ k) hv
            simp only [compareSpecShared, hbk]
            exact diffOk_merge _ _ hdOK hrestOK
              (hcross _ (fun s hsd => removedEntrySpec_shape v (pre ++ k) s hsd))
    have hNode : ∀ (a b : Node) (pre : Str), sizeOf a + sizeOf b ≤ N →
        WfNode a → WfNode b → DiffOk (compareSpecNode a b pre) := by
      intro a b pre hs ha hb
      obtain ⟨s1, s2, s3, s4, s5, s6⟩ := hShared a b pre hs ha hb
      have hnw : (compareSpecNewOnly a b pre).Nodup := newOnly_nodup b a pre hb
      have hcross : ∀ s, inDiff (compareSpecShared a b pre) s →
          s ∈ compareSpecNewOnly a b pre → False := by
        intro s hsd hsn
        obtain ⟨k, t, he, ht, hk⟩ :=
          (spec_shapes (sizeOf a + sizeOf b)).2.1 a b pre s le_rfl hsd
        obtain ⟨k2, t2, he2, ht2, hk2, hl2⟩ := newOnly_shape b a pre s hsn
        have hk2a : k2 ∉ keys a := lookupV_eq_none.mp hl2
        have hne : k ≠ k2 := fun h => hk2a (h ▸ hk)
        exact path_ne_of_key_ne (wf_keys_dotFree ha k hk)
          (wf_keys_dotFree hb k2 hk2) ht ht2 hne (he ▸ he2)
      simp only [compareSpecNode]
      refine ⟨s1, ?_, s3, ?_, s5, ?_⟩
      · rw [List.nodup_append]
        refine ⟨s2, hnw, ?_⟩
        intro s hs1 hs2
        exact hcross s (Or.inr (Or.inl hs1)) hs2
      · intro s hs1 hs2
        rw [List.mem_append] at hs2
        rcases hs2 with hs2 | hs2
        · exact s4 hs1 hs2
        · exact hcross s (Or.inl hs1) hs2
      · intro s hs1 hs2
        rw [List.mem_append] at hs1
        rcases hs1 with hs1 | hs1
        · exact s6 hs1 hs2
        · exact hcross s (Or.inr (Or.inr hs2)) hs1
    exact ⟨hVal, hShared, hNode⟩

/-- Claim C2: A.Compare(B) reports, at a shared key where both values are
nodes, the recursive diff; at a shared key where exactly one side is a
node, the key itself as modified plus every descendant path of the node
side as removed (node vanished) or added (node appeared); at a shared key
where neither side is a node, the key as modified exactly when the values
differ by deep equality; keys present only in A as removed and keys
present only in B as added, each recursively expanded into all descendant
paths of any node subtree.  Stated as: Node.Compare coincides with the
specification-side diff compareSpecNode built from exactly those rules. -/
theorem compare_matches_spec (a b : Node) :
    compareNode a b [] = compareSpecNode a b [] :=
  (compare_eq_spec_all (sizeOf a + sizeOf b)).2.2 a b [] le_rfl

/-- Claim C10: for well-formed trees (unique, period-free keys at every
node, as Go maps and the documented key invariant guarantee), the three
lists returned by A.Compare(B) are each duplicate-free and pairwise
disjoint: every reported path appears in exactly one list and at most
once overall. -/
theorem compare_disjoint_nodup (a b : Node) (ha : WfNode a) (hb : WfNode b) :
    (compareNode a b []).modified.Nodup ∧
    (compareNode a b []).added.Nodup ∧
    (compareNode a b []).removed.Nodup ∧
    (compareNode a b []).modified.Disjoint (compareNode a b []).added ∧
    (compareNode a b []).modified.Disjoint (compareNode a b []).removed ∧
    (compareNode a b []).added.Disjoint (compareNode a b []).removed := by
  rw [(compare_eq_spec_all (sizeOf a + sizeOf b)).2.2 a b [] le_rfl]
  exact (spec_nd (sizeOf a + sizeOf b)).2.2 a b [] le_rfl ha hb

/-- Witness for compare_disjoint_nodup at two small concrete trees. -/
theorem compare_disjoint_nodup_witness :
    ((compareNode [(chars ("x"), Value.vnum (chars ("1")))]
      [(chars ("x"), Value.node [(chars ("z"), Value.vbool true)]),
       (chars ("y"), Value.vnum (chars ("2")))] []).added.Nodup) :=
  (compare_disjoint_nodup _ _
    (WfNode.cons (by decide) (by decide) (WfValue.vnum _) WfNode.nil)
    (WfNode.cons (by decide) (by decide)
      (WfValue.node (WfNode.cons (by decide) (by decide)
        (WfValue.vbool true) WfNode.nil))
      (WfNode.cons (by decide) (by decide) (WfValue.vnum _)
        WfNode.nil))).2.1

/- ------------------------------------------------------------------ -/
/- Set at the root path (claim C3) and Get at the root path (C7).      -/
/- ------------------------------------------------------------------ -/

theorem pathSplit_dotFree : ∀ p : Str, '.' ∉ p → pathSplit p = [p] := by
  intro p
  induction p with
  | nil => intro _; rfl
  | cons c rest ih =>
    intro h
    have hc : ¬ (c = '.') := fun he => h (he ▸ List.mem_cons_self c rest)
    have hrest : '.' ∉ rest := fun hm => h (List.mem_cons_of_mem _ hm)
    simp [pathSplit, ih hrest, hc]

/-- Counterexample to claim C3: Set with the root path does not merge the
converted node's top-level keys into the root.  On the tree x maps to 1,
setting the node y maps to 2 at the root leaves no key y in the result;
instead the whole converted node is stored under the empty-string key. -/
theorem set_root_counterexample :
    lookupV (nodeSetPath [(chars ("x"), Value.vnum (chars ("1")))]
        (chars (""))
        (Value.node [(chars ("y"), Value.vnum (chars ("2")))]))
      (chars ("y")) = none ∧
    nodeSetPath [(chars ("x"), Value.vnum (chars ("1")))] (chars (""))
        (Value.node [(chars ("y"), Value.vnum (chars ("2")))]) =
      [(chars ("x"), Value.vnum (chars ("1"))),
       ([], Value.node [(chars ("y"), Value.vnum (chars ("2")))])] := by
  exact ⟨rfl, rfl⟩

theorem pathSplit_ne_nil : ∀ p : Str, pathSplit p ≠ [] := by
  intro p
  induction p with
  | nil => simp [pathSplit]
  | cons c rest ih =>
    simp only [pathSplit]
    cases hh : pathSplit rest with
    | nil => simp
    | cons s ss => by_cases hc : c = '.' <;> simp [hc]

theorem setAt_getRaw : ∀ (segs : List Str) (n : Node) (v : Value),
    segs ≠ [] → getRaw (Value.node (setAt n segs v)) segs = Except.ok v := by
  intro segs
  induction segs with
  | nil => intro n v h; exact absurd rfl h
  | cons e rest ih =>
    intro n v _
    cases rest with
    | nil => simp [setAt, getRaw, lookupV_nodeSet_self]
    | cons e2 rest2 =>
      simp only [setAt, getRaw, lookupV_nodeSet_self]
      exact ih _ v (by simp)

/-- Claim C3 (amended): Set with a path addressing the root (the empty
path) does not merge the converted node's top-level keys into the root;
the converted value is stored wholesale under the empty-string child key,
keeping every other existing root key.  For every separator-free path p
(the empty root path included), Set replaces the value at key p of the
root node and leaves every other key untouched; and for every path, deep
ones included, Set stores the converted value at exactly the addressed
location, as Get at the same path then returns it. -/
theorem set_sepFree_replaces_at_key :
    (∀ (n : Node) (v : Value) (p : Str), '.' ∉ p →
      lookupV (nodeSetPath n p v) p = some v ∧
      ∀ k, k ≠ p → lookupV (nodeSetPath n p v) k = lookupV n k) ∧
    (∀ (n : Node) (v : Value) (p : Str),
      nodeGet (nodeSetPath n p v) p = Except.ok v) := by
  constructor
  · intro n v p hp
    have hsplit : pathSplit p = [p] := pathSplit_dotFree p hp
    constructor
    · rw [nodeSetPath, hsplit]
      exact lookupV_nodeSet_self n p v
    · intro k hk
      rw [nodeSetPath, hsplit]
      exact lookupV_nodeSet_other hk
  · intro n v p
    rw [nodeGet, nodeSetPath]
    exact setAt_getRaw (pathSplit p) n v (pathSplit_ne_nil p)

/-- Witness for set_sepFree_replaces_at_key at the root path. -/
theorem set_sepFree_replaces_at_key_witness :
    lookupV (nodeSetPath [(chars ("a"), Value.vnum (chars ("1")))]
      (chars ("")) (Value.vbool true)) (chars ("")) =
      some (Value.vbool true) :=
  (set_sepFree_replaces_at_key.1 [(chars ("a"), Value.vnum (chars ("1")))]
    (Value.vbool true) (chars ("")) (by decide)).1

/-- Counterexample to claim C7: Get with the empty path (or the path
consisting of one period) does not address the root node; on the tree x
maps to 1 it fails with ElementNotFound instead of succeeding with the
whole root. -/
theorem get_root_counterexample :
    nodeGet [(chars ("x"), Value.vnum (chars ("1")))] (chars ("")) =
      Except.error GetErr.elementNotFound ∧
    nodeGet [(chars ("x"), Value.vnum (chars ("1")))] (chars (".")) =
      Except.error GetErr.elementNotFound := by
  exact ⟨rfl, rfl⟩

/-- Claim C7 (amended): Get with the empty path looks up the child stored
under the empty-string key of the root rather than the root itself, and
fails with ElementNotFound when no such child exists; Get with the path
of a single period looks up the empty-string key twice. -/
theorem get_empty_path_uses_empty_key (n : Node) :
    nodeGet n (chars ("")) =
      (match lookupV n [] with
       | some v => Except.ok v
       | none => Except.error GetErr.elementNotFound) ∧
    nodeGet n (chars (".")) =
      (match lookupV n [] with
       | some (Value.node m) =>
         (match lookupV m [] with
          | some v => Except.ok v
          | none => Except.error GetErr.elementNotFound)
       | some _ => Except.error GetErr.pathInsideValue
       | none => Except.error GetErr.elementNotFound) := by
  constructor
  · show getRaw (Value.node n) [[]] = _
    cases h : lookupV n [] with
    | some v => simp [getRaw, h]
    | none => simp [getRaw, h]
  · show getRaw (Value.node n) [[], []] = _
    cases h : lookupV n [] with
    | some v =>
      cases v with
      | node m =>
        cases h2 : lookupV m [] with
        | some w => simp [getRaw, h, h2]
        | none => simp [getRaw, h, h2]
      | vlist l => simp [getRaw, h]
      | vbool x => simp [getRaw, h]
      | vstr x => simp [getRaw, h]
      | vnum x => simp [getRaw, h]
      | vnull => simp [getRaw, h]
    | none => simp [getRaw, h]

/- ------------------------------------------------------------------ -/
/- Listener dispatch filtering (claim C4).                             -/
/- ------------------------------------------------------------------ -/

/-- Counterexample to claim C4: in a single dispatch round a listener
with the two filter paths a and b and modified paths a.x and b.y has its
callback invoked twice (once per matching filter path), not at most
once. -/
theorem sendChanges_twice_counterexample :
    (sendChanges [chars ("a"), chars ("b")]
      [chars ("a.x"), chars ("b.y")] [] []).length = 2 := by
  rfl

/-- Claim C4 (amended): in one dispatch round the listener's callback is
invoked once per filter path whose three filtered lists are not all
empty, so at most once per filter path (hence at most once per round only
when the listener has a single filter path); each invocation receives
exactly the sublists of changed paths p for which Contains(p, filterPath)
holds for that one filter path, and an invocation only happens when at
least one of its three lists is non-empty. -/
theorem sendChanges_per_filter_path (lpaths modified added removed : List Str) :
    (sendChanges lpaths modified added removed).length ≤ lpaths.length ∧
    (∀ inv ∈ sendChanges lpaths modified added removed,
      (∃ lp ∈ lpaths,
        inv = (filterByPath lp modified, filterByPath lp added,
          filterByPath lp removed)) ∧
      (0 < inv.1.length ∨ 0 < inv.2.1.length ∨ 0 < inv.2.2.length)) ∧
    (∀ lp ∈ lpaths,
      (0 < (filterByPath lp modified).length ∨
        0 < (filterByPath lp added).length ∨
        0 < (filterByPath lp removed).length) →
      (filterByPath lp modified, filterByPath lp added,
        filterByPath lp removed) ∈ sendChanges lpaths modified added removed) := by
  induction lpaths with
  | nil => simp [sendChanges]
  | cons lp rest ih =>
    obtain ⟨ih1, ih2, ih3⟩ := ih
    by_cases hc : 0 < (filterByPath lp modified).length ∨
        0 < (filterByPath lp added).length ∨
        0 < (filterByPath lp removed).length
    · refine ⟨?_, ?_, ?_⟩
      · simp only [sendChanges, if_pos hc, List.singleton_append,
          List.length_cons]
        exact Nat.succ_le_succ ih1
      · intro inv hinv
        simp only [sendChanges, if_pos hc, List.singleton_append,
          List.mem_cons] at hinv
        rcases hinv with rfl | hinv
        · exact ⟨⟨lp, List.mem_cons_self lp rest, rfl⟩, hc⟩
        · obtain ⟨⟨lp2, hlp2, he⟩, hne⟩ := ih2 inv hinv
          exact ⟨⟨lp2, List.mem_cons_of_mem _ hlp2, he⟩, hne⟩
      · intro lp2 hlp2 hne
        simp only [sendChanges, if_pos hc, List.singleton_append,
          List.mem_cons]
        rcases List.mem_cons.mp hlp2 with rfl | hlp2
        · exact Or.inl rfl
        · exact Or.inr (ih3 lp2 hlp2 hne)
    · refine ⟨?_, ?_, ?_⟩
      · simp only [sendChanges, if_neg hc, List.nil_append, List.length_cons]
        exact Nat.le_succ_of_le ih1
      · intro inv hinv
        simp only [sendChanges, if_neg hc, List.nil_append] at hinv
        obtain ⟨⟨lp2, hlp2, he⟩, hne⟩ := ih2 inv hinv
        exact ⟨⟨lp2, List.mem_cons_of_mem _ hlp2, he⟩, hne⟩
      · intro lp2 hlp2 hne
        simp only [sendChanges, if_neg hc, List.nil_append]
        rcases List.mem_cons.mp hlp2 with rfl | hlp2
        · exact absurd hne hc
        · exact ih3 lp2 hlp2 hne

/-- Witness for sendChanges_per_filter_path at a concrete round. -/
theorem sendChanges_per_filter_path_witness :
    (sendChanges [chars ("a")] [chars ("a.x")] [] []).length ≤ 1 :=
  (sendChanges_per_filter_path [chars ("a")] [chars ("a.x")] [] []).1

/- ------------------------------------------------------------------ -/
/- Building the merged tree from the store list (claims C5, C6, C9).   -/
/- ------------------------------------------------------------------ -/

theorem readConfigRev_ok : ∀ (ts : List Node) (acc : Node),
    readConfigRev (ts.map Except.ok) acc = Except.ok (ts.foldl nodeMerge acc) := by
  intro ts
  induction ts with
  | nil => intro acc; rfl
  | cons t rest ih => intro acc; simp [readConfigRev, List.foldl_cons, ih]

theorem readConfigRev_error_mem : ∀ (rs : List (Except StoreErr Node))
    (acc : Node) (e : StoreErr), readConfigRev rs acc = Except.error e →
    Except.error e ∈ rs := by
  intro rs
  induction rs with
  | nil => intro acc e h; simp [readConfigRev] at h
  | cons r rest ih =>
    intro acc e h
    cases r with
    | error e2 =>
      simp only [readConfigRev] at h
      cases h
      exact List.mem_cons_self _ _
    | ok t =>
      simp only [readConfigRev] at h
      exact List.mem_cons_of_mem _ (ih _ e h)

theorem readConfigRev_error_exists : ∀ (rs : List (Except StoreErr Node))
    (acc : Node), (∃ e, Except.error e ∈ rs) →
    ∃ e, readConfigRev rs acc = Except.error e := by
  intro rs
  induction rs with
  | nil => intro acc h; simp at h
  | cons r rest ih =>
    intro acc h
    cases r with
    | error e2 => exact ⟨e2, rfl⟩
    | ok t =>
      obtain ⟨e, he⟩ := h
      rcases List.mem_cons.mp he with h2 | h2
      · exact absurd h2 (by simp)
      · exact ih _ ⟨e, h2⟩

theorem merge_lookup_nonnode (a b : Node) (hb : (keys b).Nodup) (k : Str)
    (v : Value) (hv : isNodeV v = false) (h : lookupV b k = some v) :
    lookupV (nodeMerge a b) k = some v := by
  rw [nodeMerge_lookup b a hb k, h]
  cases hA : lookupV a k with
  | none => rfl
  | some va => cases va <;> cases v <;> simp [isNodeV] at hv ⊢

/-- Claim C5: building the merged tree reads the stores from the last
index (lowest priority) down to index 0, merging each tree into an empty
accumulator with Tree.Merge (so index 0 is merged last and wins at
conflicting non-node values); any failing read aborts the whole load with
a store's error, and no partial tree is produced. -/
theorem readConfig_spec :
    (∀ ts : List Node, readConfig (ts.map Except.ok) =
      Except.ok ((ts.reverse).foldl nodeMerge [])) ∧
    (∀ (stores : List (Except StoreErr Node)) (e : StoreErr),
      readConfig stores = Except.error e → Except.error e ∈ stores) ∧
    (∀ stores : List (Except StoreErr Node),
      (∃ e, Except.error e ∈ stores) →
      ∃ e, readConfig stores = Except.error e ∧ Except.error e ∈ stores) ∧
    (∀ (t0 : Node) (rest : List Node) (k : Str) (v : Value),
      (keys t0).Nodup → lookupV t0 k = some v → isNodeV v = false →
      readConfig ((t0 :: rest).map Except.ok) =
        Except.ok (((t0 :: rest).reverse).foldl nodeMerge []) ∧
      lookupV (((t0 :: rest).reverse).foldl nodeMerge []) k = some v) := by
  have h1 : ∀ ts : List Node, readConfig (ts.map Except.ok) =
      Except.ok ((ts.reverse).foldl nodeMerge []) := by
    intro ts
    rw [readConfig, ← List.map_reverse]
    exact readConfigRev_ok ts.reverse []
  refine ⟨h1, ?_, ?_, ?_⟩
  · intro stores e h
    rw [readConfig] at h
    have := readConfigRev_error_mem stores.reverse [] e h
    exact List.mem_reverse.mp this
  · intro stores h
    obtain ⟨e, he⟩ := h
    obtain ⟨e2, he2⟩ := readConfigRev_error_exists stores.reverse []
      ⟨e, List.mem_reverse.mpr he⟩
    refine ⟨e2, he2, ?_⟩
    exact List.mem_reverse.mp (readConfigRev_error_mem stores.reverse [] e2 he2)
  · intro t0 rest k v hnd hl hv
    refine ⟨h1 (t0 :: rest), ?_⟩
    rw [List.reverse_cons, List.foldl_append, List.foldl_cons, List.foldl_nil]
    exact merge_lookup_nonnode _ t0 hnd k v hv hl

/-- Witness for readConfig_spec: two in-memory stores with a conflicting
key x; the store at index 0 wins. -/
theorem readConfig_spec_witness :
    lookupV
      (List.foldl nodeMerge []
        (List.reverse
          ([(chars ("x"), Value.vnum (chars ("1")))] ::
            [[(chars ("x"), Value.vnum (chars ("2"))),
              (chars ("y"), Value.vnum (chars ("3")))]])))
      (chars ("x")) = some (Value.vnum (chars ("1"))) :=
  (readConfig_spec.2.2.2 [(chars ("x"), Value.vnum (chars ("1")))]
    [[(chars ("x"), Value.vnum (chars ("2"))),
      (chars ("y"), Value.vnum (chars ("3")))]]
    (chars ("x")) (Value.vnum (chars ("1"))) (by decide) rfl rfl).2

/-- Claim C6: a failing store read during initial construction is fatal,
New returns that error and no Config is produced; the same failure during
a later change-notification reload is only logged, no recomputed tree is
forwarded for that round and the previous authoritative tree and the
queued state are retained unchanged. -/
theorem new_fatal_reload_nonfatal (stores : List (Except StoreErr Node))
    (s : LoopState) (e : StoreErr) :
    (readConfig stores = Except.error e → newConfig stores = Except.error e) ∧
    (∀ c : ConfigState, newConfig stores = Except.ok c →
      readConfig stores = Except.ok c.tree) ∧
    (readConfig stores = Except.error e → handleChange stores s = s) := by
  refine ⟨?_, ?_, ?_⟩
  · intro h; simp [newConfig, h]
  · intro c h
    cases hr : readConfig stores with
    | ok t =>
      simp [newConfig, hr] at h
      rw [← h]
    | error e2 => simp [newConfig, hr] at h
  · intro h; simp [handleChange, h]

/-- Witness for new_fatal_reload_nonfatal with a single failing store. -/
theorem new_fatal_reload_nonfatal_witness :
    newConfig [Except.error 7] = Except.error 7 ∧
    handleChange [Except.error 7] ⟨[], none⟩ = ⟨[], none⟩ :=
  ⟨(new_fatal_reload_nonfatal [Except.error 7] ⟨[], none⟩ 7).1 rfl,
   (new_fatal_reload_nonfatal [Except.error 7] ⟨[], none⟩ 7).2.2 rfl⟩

/-- Claim C9: treeChan has capacity one (modelled by the Option-typed
queued field), so at most one recomputed tree is ever buffered; a
successful reload always ends with exactly the new tree queued, replacing
without blocking whatever tree was still queued, and never accumulating a
backlog. -/
theorem reload_coalesces (stores : List (Except StoreErr Node))
    (s : LoopState) (t : Node) (h : readConfig stores = Except.ok t) :
    handleChange stores s = ⟨s.authTree, some t⟩ := by
  cases s
  simp [handleChange, h]

/-- Witness for reload_coalesces: the previously queued tree is replaced
by the newly read one. -/
theorem reload_coalesces_witness :
    handleChange [Except.ok [(chars ("x"), Value.vnum (chars ("1")))]]
      ⟨[], some [(chars ("y"), Value.vnum (chars ("2")))]⟩ =
      ⟨[], some [(chars ("x"), Value.vnum (chars ("1")))]⟩ :=
  reload_coalesces [Except.ok [(chars ("x"), Value.vnum (chars ("1")))]]
    ⟨[], some [(chars ("y"), Value.vnum (chars ("2")))]⟩
    [(chars ("x"), Value.vnum (chars ("1")))]
    (by simp [readConfig, readConfigRev, nodeMerge, lookupV, nodeSet])

/-- Claim C8 marks a code bug: NumberCreate formats floats with the f
verb at its default precision of six decimal places, so the float value
1e-7 and the float value 0 are both stored as the text 0.000000: distinct
values collapse to one representation, and the stored text does not
represent the exact value, contradicting NumberCreate's own
documentation. -/
theorem numberCreate_float_loses_value :
    numberCreate (GoNum.float (mkRat 1 10000000)) = chars ("0.000000") ∧
    numberCreate (GoNum.float (mkRat 0 1)) = chars ("0.000000") ∧
    mkRat 1 10000000 ≠ mkRat 0 1 := by
  refine ⟨by decide, by decide, by decide⟩

end D3
